import Mathlib

/-!
Verification of the write-batch commit engine of tracedb (`batch.go`).

Byte strings are modelled as `List Nat` whose elements are byte values
(< 256 for every string the Go code can construct).  Machine integers
(`uint16`, `uint32`, `uint64`) are modelled as `Nat` with explicit
`% 2 ^ w` reductions at the places where the Go code casts or can
overflow.  Fallible Go functions return an `Option BatchError` next to
their (mutated-in-place) results, mirroring Go's `(..., err)` returns
and the fact that the code performs no rollback on error.
-/

set_option autoImplicit false

namespace Tracedb

/-- Error kinds of the batch engine (`errKeyEmpty`, `errKeyTooLarge`,
`errValueTooLarge`, `errBatchSeqComplete`, `errKeyExpired`, `errFull`,
plus a kind for I/O read failures and one for the
`panic("tracedb: invalid sequence number")` in `makeInternalKey`). -/
inductive BatchError where
  | keyEmpty
  | keyTooLarge
  | valueTooLarge
  | seqOverflow
  | batchSeqComplete
  | keyExpired
  | full
  | dataRead
  deriving Repr, DecidableEq

/-! ## Little-endian codec (Go `encoding/binary`, as used by `batch.go`) -/

/-- `binary.LittleEndian.PutUint64`: the eight bytes of `x % 2^64`,
least significant first. -/
def putUint64LE (x : Nat) : List Nat :=
  [x % 256, x / 256 % 256, x / 65536 % 256, x / 16777216 % 256,
   x / 4294967296 % 256, x / 1099511627776 % 256,
   x / 281474976710656 % 256, x / 72057594037927936 % 256]

/-- `binary.LittleEndian.PutUint32`: the four bytes of `x % 2^32`,
least significant first. -/
def putUint32LE (x : Nat) : List Nat :=
  [x % 256, x / 256 % 256, x / 65536 % 256, x / 16777216 % 256]

/-- Little-endian value of a byte list (`binary.LittleEndian.Uint64` /
`Uint32` applied to a slice of the right length). -/
def leVal (bs : List Nat) : Nat :=
  bs.foldr (fun b acc => b + 256 * acc) 0

theorem leVal_putUint64LE (x : Nat) (h : x < 18446744073709551616) :
    leVal (putUint64LE x) = x := by
  simp only [putUint64LE, leVal, List.foldr]
  omega

theorem leVal_putUint32LE (x : Nat) :
    leVal (putUint32LE x) = x % 4294967296 := by
  simp only [putUint32LE, leVal, List.foldr]
  omega

@[simp] theorem length_putUint64LE (x : Nat) : (putUint64LE x).length = 8 := rfl

@[simp] theorem length_putUint32LE (x : Nat) : (putUint32LE x).length = 4 := rfl

/-! ## Internal key codec (`makeInternalKey` / `parseInternalKey`) -/

/-- `keyMaxSeq = (1 << 56) - 1`: maximum sequence number. -/
def keyMaxSeq : Nat := 72057594037927935

/-- `makeInternalKey(dst, ukey, seq, dFlag, expiresAt)`.

The Go function panics when `seq > keyMaxSeq` (modelled as `none`);
otherwise it produces `ukey || u64le((seq<<8)|dBit) || u32le(expiresAt)`.
Since `dBit < 256`, `(seq<<8)|dBit = seq*256 + dBit`.  The `dst`
buffer-reuse via `ensureBuffer` (defined outside this repository's
source) only recycles capacity; every in-source call passes a nil `dst`,
so the result is modelled as a fresh byte string. -/
def makeInternalKey (ukey : List Nat) (seq : Nat) (dFlag : Bool)
    (expiresAt : Nat) : Option (List Nat) :=
  if seq > keyMaxSeq then none
  else
    some (ukey ++ putUint64LE (seq * 256 + (if dFlag then 1 else 0)) ++
      putUint32LE expiresAt)

/-- Result of `parseInternalKey`: the four named return values together
with the named `err` return. -/
structure ParsedKey where
  ukey : List Nat
  seq : Nat
  dFlag : Bool
  expiresAt : Nat
  err : Option BatchError
  deriving Repr, DecidableEq

/-- `parseInternalKey(ik)`.

When `len(ik) < 12` the Go code logs "invalid internal key length" and
executes a bare `return`: the named returns keep their zero values, so
`err` is `nil` (not a non-nil invalid-key error).  Otherwise
`expiresAt` is read from the last 4 bytes, the packed `num` from the 8
bytes before them, `seq = num >> 8`, `dFlag = num & 0xff != 0`, and
`ukey` is the remaining prefix.  No branch of the function ever
assigns `err`. -/
def parseInternalKey (ik : List Nat) : ParsedKey :=
  if ik.length < 12 then
    { ukey := [], seq := 0, dFlag := false, expiresAt := 0, err := none }
  else
    let expiresAt := leVal (ik.drop (ik.length - 4))
    let num := leVal ((ik.drop (ik.length - 12)).take 8)
    { ukey := ik.take (ik.length - 12)
      seq := num / 256
      dFlag := decide (num % 256 ≠ 0)
      expiresAt := expiresAt
      err := none }

/-- Round-trip of the internal-key codec: shared helper for the
claims about encoding, staging and the commit walk. -/
theorem parse_make (ukey : List Nat) (seq : Nat) (dFlag : Bool)
    (expiresAt : Nat) (h1 : seq ≤ keyMaxSeq) :
    makeInternalKey ukey seq dFlag expiresAt =
      some (ukey ++ putUint64LE (seq * 256 + (if dFlag then 1 else 0)) ++
        putUint32LE expiresAt) ∧
    parseInternalKey (ukey ++ putUint64LE (seq * 256 + (if dFlag then 1 else 0)) ++
        putUint32LE expiresAt) =
      { ukey := ukey, seq := seq, dFlag := dFlag,
        expiresAt := expiresAt % 4294967296, err := none } := by
  have hmk : makeInternalKey ukey seq dFlag expiresAt =
      some (ukey ++ putUint64LE (seq * 256 + (if dFlag then 1 else 0)) ++
        putUint32LE expiresAt) := by
    simp only [makeInternalKey, if_neg (by omega : ¬ seq > keyMaxSeq)]
  refine ⟨hmk, ?_⟩
  set dBit : Nat := if dFlag then 1 else 0 with hdBit
  have hdlt : dBit < 256 := by cases dFlag <;> simp [hdBit]
  have hnum : seq * 256 + dBit < 18446744073709551616 := by
    have : seq ≤ 72057594037927935 := h1
    omega
  set ik : List Nat := ukey ++ putUint64LE (seq * 256 + dBit) ++
    putUint32LE expiresAt with hik
  have hlen : ik.length = ukey.length + 12 := by
    simp [hik, List.length_append]
  have hnotlt : ¬ ik.length < 12 := by omega
  have htake : ik.take (ik.length - 12) = ukey := by
    rw [hlen]
    have : ukey.length + 12 - 12 = ukey.length := by omega
    rw [this, hik, List.append_assoc, List.take_left]
  have hdrop4 : ik.drop (ik.length - 4) = putUint32LE expiresAt := by
    rw [hlen, hik, List.append_assoc]
    have h8 : ukey.length + 12 - 4 =
        (ukey ++ putUint64LE (seq * 256 + dBit)).length := by
      simp [List.length_append]
    rw [← List.append_assoc, ← List.drop_left
      (ukey ++ putUint64LE (seq * 256 + dBit)) (putUint32LE expiresAt)]
    congr 1
    simp [List.length_append]
  have hdrop12 : (ik.drop (ik.length - 12)).take 8 = putUint64LE (seq * 256 + dBit) := by
    rw [hlen]
    have : ukey.length + 12 - 12 = ukey.length := by omega
    rw [this, hik, List.append_assoc, List.drop_left]
    rw [List.take_left' (by simp)]
  simp only [parseInternalKey, if_neg hnotlt, htake, hdrop4, hdrop12,
    leVal_putUint64LE _ hnum, leVal_putUint32LE]
  have hdiv : (seq * 256 + dBit) / 256 = seq := by omega
  have hmod : (seq * 256 + dBit) % 256 = dBit := by omega
  have hd : decide (dBit ≠ 0) = dFlag := by cases dFlag <;> simp [hdBit]
  simp [hdiv, hmod, hd]

/-- C5: for every user key, every `seq ≤ 2^56 - 1`, every delete flag and
every (32-bit) expiry, decoding the internal key produced by encoding
recovers exactly the encoded quadruple, with no error. -/
theorem claim_C5_internal_key_roundtrip (ukey : List Nat) (seq : Nat)
    (dFlag : Bool) (expiresAt : Nat) (h1 : seq ≤ keyMaxSeq)
    (h2 : expiresAt < 4294967296) :
    ∃ ik, makeInternalKey ukey seq dFlag expiresAt = some ik ∧
      parseInternalKey ik =
        { ukey := ukey, seq := seq, dFlag := dFlag, expiresAt := expiresAt,
          err := none } := by
  obtain ⟨h3, h4⟩ := parse_make ukey seq dFlag expiresAt h1
  rw [Nat.mod_eq_of_lt h2] at h4
  exact ⟨_, h3, h4⟩

/-- Witness for C5 at a concrete input. -/
theorem claim_C5_witness :
    (3 : Nat) ≤ keyMaxSeq ∧ (7 : Nat) < 4294967296 ∧
    ∃ ik, makeInternalKey [10, 20] 3 true 7 = some ik ∧
      parseInternalKey ik =
        { ukey := [10, 20], seq := 3, dFlag := true, expiresAt := 7,
          err := none } :=
  ⟨by decide, by decide,
    claim_C5_internal_key_roundtrip [10, 20] 3 true 7 (by decide) (by decide)⟩

/-- C6 (code bug): on any byte string shorter than 12 bytes,
`parseInternalKey` returns the zero values of all named returns —
including a `nil` error.  The function logs "invalid internal key
length" and its callers test `err != nil`, but the bare `return`
leaves the named `err` unassigned, so no `InvalidInternalKey` error is
ever produced. -/
theorem claim_C6_short_key_nil_error (ik : List Nat) (h : ik.length < 12) :
    parseInternalKey ik =
      { ukey := [], seq := 0, dFlag := false, expiresAt := 0, err := none } := by
  simp [parseInternalKey, if_pos h]

/-- Witness for C6 at the empty byte string. -/
theorem claim_C6_witness :
    ([] : List Nat).length < 12 ∧
    parseInternalKey [] =
      { ukey := [], seq := 0, dFlag := false, expiresAt := 0, err := none } :=
  ⟨by decide, claim_C6_short_key_nil_error [] (by decide)⟩

/-! ## Batch buffer records (`batchIndex`) and deduplication (`uniq`) -/

/-- One record descriptor of the batch buffer. -/
structure batchIndex where
  delFlag : Bool
  hash : Nat
  keySize : Nat
  valueSize : Nat
  expiresAt : Nat
  kvOffset : Nat
  deriving Repr, DecidableEq

/-- `batchIndex.kvSize()`. -/
def batchIndex.kvSize (index : batchIndex) : Nat :=
  index.keySize + index.valueSize

/-- `batchIndex.kv(data)`: the key and value slices
`data[kvOffset : kvOffset+kvSize]` split at `keySize`. -/
def batchIndex.kv (index : batchIndex) (data : List Nat) :
    List Nat × List Nat :=
  let keyValue := (data.drop index.kvOffset).take index.kvSize
  (keyValue.take index.keySize, keyValue.drop index.keySize)

/-- The backward scan of `uniq()`: Go iterates `idx` from `len-1` down
to `0` (here: a forward traversal of the reversed index), skipping any
entry whose hash is already in `unique_set` (here: `seen`) and
otherwise recording the entry together with its discovery counter `i`. -/
def uniqRev : List batchIndex → List Nat → List batchIndex
  | [], _ => []
  | e :: rest, seen =>
    if seen.contains e.hash then uniqRev rest seen
    else e :: uniqRev rest (e.hash :: seen)

/-- `uniq()`: the Go code finally places the entry with discovery
counter `i` at `pendingWrites[n-i-1]`, i.e. it reverses the
discovery-ordered list produced by the backward scan. -/
def uniq (index : List batchIndex) : List batchIndex :=
  (uniqRev index.reverse []).reverse

/-- The claim's description of `uniq`: keep exactly those entries that
are the last occurrence of their key hash, in original append order
(so each survivor sits at the position of its latest occurrence,
counted from the start). -/
def lastOccurrences : List batchIndex → List batchIndex
  | [] => []
  | e :: rest =>
    if rest.all (fun e2 => e2.hash != e.hash) then e :: lastOccurrences rest
    else lastOccurrences rest

/-- `lastOccurrences` additionally filtered by a set of forbidden
hashes; generalization used to relate the backward scan to the claim. -/
def lastOccNotSeen : List batchIndex → List Nat → List batchIndex
  | [], _ => []
  | e :: rest, seen =>
    if rest.all (fun e2 => e2.hash != e.hash) && !(seen.contains e.hash)
    then e :: lastOccNotSeen rest seen
    else lastOccNotSeen rest seen

theorem lastOccNotSeen_append_singleton (m : List batchIndex)
    (e : batchIndex) (seen : List Nat) :
    lastOccNotSeen (m ++ [e]) seen =
      lastOccNotSeen m (e.hash :: seen) ++
        (if seen.contains e.hash then [] else [e]) := by
  induction m with
  | nil =>
    simp only [List.nil_append, lastOccNotSeen, List.all_nil, Bool.true_and]
    cases h : seen.contains e.hash <;> simp [h]
  | cons x m' ih =>
    by_cases heq : e.hash = x.hash <;> by_cases hcont : x.hash ∈ seen <;>
      (simp [lastOccNotSeen, List.all_append, ih, heq, hcont, ne_comm]
       first
       | done
       | (split <;> simp_all))

theorem lastOccNotSeen_contains (m : List batchIndex) (h : Nat)
    (seen : List Nat) (hmem : seen.contains h = true) :
    lastOccNotSeen m (h :: seen) = lastOccNotSeen m seen := by
  induction m with
  | nil => rfl
  | cons x m' ih =>
    simp only [lastOccNotSeen, List.contains_cons, ih]
    by_cases hx : h = x.hash
    · have hmem' : x.hash ∈ seen := by
        rw [← hx]
        simpa using hmem
      simp [hmem']
    · have hne : ¬x.hash = h := fun hh => hx hh.symm
      simp [hne, hx]

theorem uniqRev_reverse (r : List batchIndex) :
    ∀ seen, (uniqRev r seen).reverse = lastOccNotSeen r.reverse seen := by
  induction r with
  | nil => intro seen; rfl
  | cons e rest ih =>
    intro seen
    by_cases h : e.hash ∈ seen
    · have hc : seen.contains e.hash = true := by simpa using h
      simp [uniqRev, h, ih, lastOccNotSeen_append_singleton,
        lastOccNotSeen_contains _ _ _ hc]
    · simp [uniqRev, h, ih, lastOccNotSeen_append_singleton]

theorem lastOccNotSeen_nil_seen (m : List batchIndex) :
    lastOccNotSeen m [] = lastOccurrences m := by
  induction m with
  | nil => rfl
  | cons e rest ih =>
    simp [lastOccNotSeen, lastOccurrences, ih]

/-- `uniq` computes exactly the last-occurrence filter. -/
theorem uniq_eq_lastOccurrences (index : List batchIndex) :
    uniq index = lastOccurrences index := by
  rw [uniq, uniqRev_reverse, List.reverse_reverse, lastOccNotSeen_nil_seen]

theorem lastOccurrences_sublist (l : List batchIndex) :
    (lastOccurrences l).Sublist l := by
  induction l with
  | nil => exact List.Sublist.refl []
  | cons e rest ih =>
    simp only [lastOccurrences]
    split
    · exact ih.cons₂ e
    · exact ih.cons e

theorem lastOccurrences_hashes_nodup (l : List batchIndex) :
    ((lastOccurrences l).map (·.hash)).Nodup := by
  induction l with
  | nil => simp [lastOccurrences]
  | cons e rest ih =>
    simp only [lastOccurrences]
    split
    · next hall =>
      simp only [List.map_cons, List.nodup_cons]
      refine ⟨?_, ih⟩
      intro hmem
      simp only [List.mem_map] at hmem
      obtain ⟨e', he', heq⟩ := hmem
      have : e' ∈ rest := (lastOccurrences_sublist rest).mem he'
      have := List.all_eq_true.mp hall e' this
      simp [heq] at this
    · exact ih

theorem lastOccurrences_complete (l : List batchIndex) :
    ∀ e ∈ l, ∃ e' ∈ lastOccurrences l, e'.hash = e.hash := by
  induction l with
  | nil => intro e he; cases he
  | cons x rest ih =>
    intro e he
    simp only [lastOccurrences]
    by_cases hall : rest.all (fun e2 => e2.hash != x.hash) = true
    · rw [if_pos hall]
      rcases List.mem_cons.mp he with rfl | he'
      · exact ⟨e, List.mem_cons_self _ _, rfl⟩
      · obtain ⟨e', he'', heq⟩ := ih e he'
        exact ⟨e', List.mem_cons_of_mem _ he'', heq⟩
    · rw [if_neg hall]
      rcases List.mem_cons.mp he with rfl | he'
      · simp only [List.all_eq_true, not_forall] at hall
        obtain ⟨e2, he2, hne⟩ := hall
        have he2h : e2.hash = e.hash := by
          by_contra hc
          exact hne (by simp [hc, bne_iff_ne])
        obtain ⟨e', he'', heq⟩ := ih e2 he2
        exact ⟨e', he'', heq.trans he2h⟩
      · exact ih e he'

/-- C1: `uniq()` returns, for every append sequence, exactly one entry
per distinct key hash — the last-appended entry for that hash — and the
survivors appear in the order of the positions of their latest
occurrences in the original append sequence (formalized as the
last-occurrence filter `lastOccurrences`), with no duplicate hash in
the output and with every appended hash represented. -/
theorem claim_C1_uniq_dedup (index : List batchIndex) :
    uniq index = lastOccurrences index ∧
    ((uniq index).map (·.hash)).Nodup ∧
    (∀ e ∈ index, ∃ e' ∈ uniq index, e'.hash = e.hash) := by
  refine ⟨uniq_eq_lastOccurrences index, ?_, ?_⟩
  · rw [uniq_eq_lastOccurrences]
    exact lastOccurrences_hashes_nodup index
  · rw [uniq_eq_lastOccurrences]
    exact lastOccurrences_complete index

/-! ## Hash and limits (collaborators outside `src/`, modelled from the spec) -/

/-- Modelled from the spec: the key hash `hash(key) → u32` used by both
the memdb (`b.mem.hash`) and the persistent index (`b.db.hash`); its
implementation lives outside this repository's source.  Modelled as
32-bit FNV-1a.  No claim depends on the mixing, only on the hash being
a function of the key into `u32`. -/
def memHash (key : List Nat) : Nat :=
  key.foldl (fun h b => Nat.xor h b * 16777619 % 4294967296) 2166136261

/-- Modelled from the spec: `MaxKeyLength` (value not given by the
spec; chosen to match the `u16` key-size descriptor field). -/
def MaxKeyLength : Nat := 65535

/-- Modelled from the spec: `MaxValueLength` (value not given by the
spec; chosen to match the `u32` value-size descriptor field). -/
def MaxValueLength : Nat := 4294967295

/-- Modelled from the spec: slots per bucket (value not given by the
spec; only its positivity matters to any claim). -/
def entriesPerBucket : Nat := 3

/-- Modelled from the spec: `MaxKeys`, the capacity bound checked by
the commit put path. -/
def MaxKeys : Nat := 4294967295

/-! ## Staging memdb (collaborator modelled from the spec)

The memdb bucket table itself lives outside `src/`.  For the staging
claims it is modelled by its observable staging state: the monotonic
`seq` counter, the live-entry `count`, the bucket count, and the
sequence of staged `(hash, internal key, value, expiresAt)` records in
insertion order.  `put` inserts a record (spec: into bucket
`hash mod nBuckets`); `split` grows the bucket table and touches
neither `seq` nor the staged records. -/

/-- One staged memdb record. -/
structure memdbEntry where
  hash : Nat
  ikey : List Nat
  value : List Nat
  expiresAt : Nat
  deriving Repr, DecidableEq

/-- Modelled from the spec: the staging view of the shared memdb. -/
structure memdb where
  seq : Nat
  count : Nat
  nBuckets : Nat
  entries : List memdbEntry
  deriving Repr, DecidableEq

/-- Modelled from the spec: `memdb.put(hash, internal_key, value,
expiresAt)` stages one record and bumps the live count. -/
def memdb.put (m : memdb) (h : Nat) (k v : List Nat) (expiresAt : Nat) : memdb :=
  { m with entries := m.entries ++ [⟨h, k, v, expiresAt⟩], count := m.count + 1 }

/-- Modelled from the spec: `memdb.split()` grows the bucket table by
splitting; it does not change `seq` or the staged records. -/
def memdb.split (m : memdb) : memdb :=
  { m with nBuckets := 2 * m.nBuckets }

/-- Modelled from the spec: the load-factor trigger
`count / (nBuckets * entriesPerBucket) > loadFactor` with the
(unspecified) load factor taken as `0.7`, in exact rational form. -/
def memdb.overLoadFactor (m : memdb) : Bool :=
  10 * m.count > 7 * (m.nBuckets * entriesPerBucket)

/-! ## The batch (`Batch` of `batch.go`) -/

/-- The batch buffer state (`managed`, the `db` handle and the shared
`mem` handle are carried separately by the operations that need them;
reference counting of the shared memdb is outside every claim). -/
structure Batch where
  data : List Nat
  index : List batchIndex
  firstKeyHash : Nat
  internalLen : Nat
  batchSeq : Nat
  deriving Repr, DecidableEq

/-- The empty batch produced by `init`. -/
def emptyBatch : Batch :=
  { data := [], index := [], firstKeyHash := 0, internalLen := 0, batchSeq := 0 }

/-- `appendRec(dFlag, expiresAt, key, value)`: write the flag byte,
record `kvOffset` right after it, copy the key and (for a put) the
value, and append the descriptor.  `grow` only manages capacity and
has no observable effect on the buffer contents.  `keySize` is a
`uint16` cast of `len(key)` and `valueSize` a `uint32` cast of
`len(value)`; `internalLen` is `uint32` arithmetic. -/
def Batch.appendRec (b : Batch) (dFlag : Bool) (expiresAt : Nat)
    (key value : List Nat) : Batch :=
  let o := b.data.length
  let index : batchIndex :=
    { delFlag := dFlag
      hash := memHash key
      keySize := key.length % 65536
      valueSize := if dFlag then 0 else value.length % 4294967296
      expiresAt := expiresAt
      kvOffset := o + 1 }
  { b with
    data := b.data ++ [if dFlag then 1 else 0] ++ key ++
      (if dFlag then [] else value)
    index := b.index ++ [index]
    internalLen :=
      (b.internalLen + key.length % 65536 +
        (if dFlag then 0 else value.length % 4294967296) + 8) % 4294967296 }

/-- `Put(key, value)` (via `PutWithTTL` with zero ttl, so
`expiresAt = 0`; nonzero ttls read the wall clock, which is outside
the model). -/
def Batch.put (b : Batch) (key value : List Nat) : Batch :=
  b.appendRec false 0 key value

/-- `Delete(key)`. -/
def Batch.del (b : Batch) (key : List Nat) : Batch :=
  b.appendRec true 0 key []

/-- `Len()`: number of records in the batch (pre-dedup). -/
def Batch.Len (b : Batch) : Nat := b.index.length

/-- `Reset()`. -/
def Batch.Reset (b : Batch) : Batch :=
  { b with data := [], index := [], internalLen := 0 }

/-- `mput(dFlag, h, expiresAt, key, value)`: validate, build the
internal key at `mem.seq + 1`, insert into the memdb, split on load
factor, set `firstKeyHash` if still 0, and bump `mem.seq`.  The result
carries the (possibly mutated) batch and memdb next to the error,
mirroring Go's in-place mutation: on a validation error both are
unchanged.  The `makeInternalKey` panic on sequence overflow is the
`seqOverflow` outcome. -/
def mput (b : Batch) (m : memdb) (dFlag : Bool) (h expiresAt : Nat)
    (key value : List Nat) : Option BatchError × Batch × memdb :=
  if key.length = 0 then (some .keyEmpty, b, m)
  else if key.length > MaxKeyLength then (some .keyTooLarge, b, m)
  else if value.length > MaxValueLength then (some .valueTooLarge, b, m)
  else
    match makeInternalKey key (m.seq + 1) dFlag expiresAt with
    | none => (some .seqOverflow, b, m)
    | some k =>
      let m1 := m.put h k value expiresAt
      let m2 := if m1.overLoadFactor then m1.split else m1
      let b1 := if b.firstKeyHash = 0 then { b with firstKeyHash := h } else b
      (none, b1, { m2 with seq := m2.seq + 1 })

/-- The loop body of `writeInternal`: apply `mput` to each pending
(deduplicated) record in order, stopping at the first error. -/
def writeLoop : List batchIndex → Batch → memdb → Option BatchError × Batch × memdb
  | [], b, m => (none, b, m)
  | idx :: rest, b, m =>
    match mput b m idx.delFlag idx.hash idx.expiresAt
        (idx.kv b.data).1 (idx.kv b.data).2 with
    | (some e, b1, m1) => (some e, b1, m1)
    | (none, b1, m1) => writeLoop rest b1 m1

/-- `writeInternal` with `Write`'s staging callback. -/
def writeInternal (b : Batch) (m : memdb) : Option BatchError × Batch × memdb :=
  writeLoop (uniq b.index) b m

/-- `Write()` after the gate send: capture `batchSeq = mem.seq` and
stage the deduplicated records.  (The blocking send on `writeLockC` at
the top of `Write` is modelled by `WriteOp` below.) -/
def Write (b : Batch) (m : memdb) : Option BatchError × Batch × memdb :=
  writeInternal { b with batchSeq := m.seq } m

/-! ## Staging lemmas -/

theorem mput_ok (b : Batch) (m : memdb) (dFlag : Bool) (h expiresAt : Nat)
    (key value : List Nat) (b' : Batch) (m' : memdb)
    (hmp : mput b m dFlag h expiresAt key value = (none, b', m')) :
    m'.seq = m.seq + 1 ∧
    (∃ k, makeInternalKey key (m.seq + 1) dFlag expiresAt = some k ∧
      m'.entries = m.entries ++ [⟨h, k, value, expiresAt⟩]) ∧
    b'.batchSeq = b.batchSeq ∧ b'.data = b.data ∧ b'.index = b.index ∧
    b'.firstKeyHash = (if b.firstKeyHash = 0 then h else b.firstKeyHash) := by
  unfold mput at hmp
  split at hmp
  · cases hmp
  split at hmp
  · cases hmp
  split at hmp
  · cases hmp
  split at hmp
  · cases hmp
  next k hk =>
    simp only [Prod.mk.injEq] at hmp
    obtain ⟨-, hb, hm⟩ := hmp
    subst hb hm
    refine ⟨?_, ⟨k, hk, ?_⟩, ?_, ?_, ?_, ?_⟩ <;>
      (first
       | rfl
       | (split <;> rfl))

theorem writeLoop_ok (l : List batchIndex) :
    ∀ b m b' m', writeLoop l b m = (none, b', m') →
      b'.batchSeq = b.batchSeq ∧
      m'.seq = m.seq + l.length ∧
      ∃ es, m'.entries = m.entries ++ es ∧ es.length = l.length ∧
        ∀ k (hk : k < es.length),
          (parseInternalKey (es.get ⟨k, hk⟩).ikey).seq = m.seq + k + 1 := by
  induction l with
  | nil =>
    intro b m b' m' hw
    cases hw
    exact ⟨rfl, rfl, [], by simp, rfl, by intro k hk; cases hk⟩
  | cons idx rest ih =>
    intro b m b' m' hw
    unfold writeLoop at hw
    split at hw
    · cases hw
    next b1 m1 hmp =>
      obtain ⟨hseq1, ⟨k, hk, hent1⟩, hbseq1, _, _, _⟩ :=
        mput_ok _ _ _ _ _ _ _ _ _ hmp
      obtain ⟨hbseq, hseq, es', hent, hlen, hseqs⟩ := ih b1 m1 b' m' hw
      have hmax : m.seq + 1 ≤ keyMaxSeq := by
        by_contra hc
        unfold makeInternalKey at hk
        rw [if_pos (by omega)] at hk
        cases hk
      have hparse : (parseInternalKey k).seq = m.seq + 1 := by
        unfold makeInternalKey at hk
        rw [if_neg (by omega)] at hk
        cases hk
        exact congrArg ParsedKey.seq
          (parse_make (idx.kv b.data).1 (m.seq + 1) idx.delFlag
            idx.expiresAt hmax).2
      refine ⟨hbseq.trans hbseq1, by simp [hseq, hseq1]; omega,
        memdbEntry.mk idx.hash k (idx.kv b.data).2 idx.expiresAt :: es', ?_,
        by simp [hlen], ?_⟩
      · rw [hent, hent1, List.append_assoc, List.singleton_append]
      · intro j hj
        cases j with
        | zero => simpa using hparse
        | succ j' =>
          have hj' : j' < es'.length := by
            simpa using Nat.lt_of_succ_lt_succ hj
          have hthis := hseqs j' hj'
          rw [hseq1] at hthis
          simpa [Nat.add_assoc, Nat.add_comm, Nat.add_left_comm] using hthis

/-! ## The writer gate (`writeLockC`)

The 1-slot channel `db.writeLockC` is modelled by whether its slot is
occupied.  The send `b.db.writeLockC <- struct{}{}` at the top of
`Write` succeeds exactly on a free gate and fills it; the receive
`<-b.db.writeLockC` at the end of `Abort` succeeds exactly on a held
gate and frees it; a blocked operation is `none`. -/

/-- `Write()` including the gate send of its first line: blocks
(`none`) while the gate is held, otherwise acquires the gate and runs
the staging body.  Neither the staging body nor any error path
releases the gate. -/
def WriteOp (g : Bool) (b : Batch) (m : memdb) :
    Option (Bool × (Option BatchError × Batch × memdb)) :=
  if g then none else some (true, Write b m)

/-- `Abort()`: `Reset` the buffers and receive from the gate (the
memdb decref only affects reference counting, which no claim
observes).  The receive blocks on a free gate. -/
def AbortOp (g : Bool) (b : Batch) : Option (Bool × Batch) :=
  if g then some (false, b.Reset) else none

/-! ## Staging claims -/

/-- C2: when every staging step of a `Write` succeeds, the `m`
deduplicated records are staged into the memdb with internal-key
sequence numbers `batchSeq+1, …, batchSeq+m` (with
`batchSeq = mem.seq` captured at the start of `Write`): strictly
increasing and contiguous within the single `Write`. -/
theorem claim_C2_write_seq_contiguous (b : Batch) (m : memdb) (b' : Batch)
    (m' : memdb) (hw : Write b m = (none, b', m')) :
    b'.batchSeq = m.seq ∧
    m'.seq = m.seq + (uniq b.index).length ∧
    ∃ es, m'.entries = m.entries ++ es ∧ es.length = (uniq b.index).length ∧
      ∀ k (hk : k < es.length),
        (parseInternalKey (es.get ⟨k, hk⟩).ikey).seq = m.seq + k + 1 := by
  unfold Write writeInternal at hw
  obtain ⟨hbseq, hseq, es, hent, hlen, hseqs⟩ := writeLoop_ok _ _ _ _ _ hw
  exact ⟨hbseq, by simpa using hseq, es, hent, by simpa using hlen, hseqs⟩

/-- Concrete batch: `Put([1],[9])` then `Put([2],[8])`. -/
def bEx : Batch := (emptyBatch.put [1] [9]).put [2] [8]

/-- Concrete staging memdb: fresh, `seq = 0`. -/
def mEx : memdb := { seq := 0, count := 0, nBuckets := 1, entries := [] }

/-- Batch state after `Write bEx mEx`. -/
def bEx2 : Batch := (Write bEx mEx).2.1

/-- Memdb state after `Write bEx mEx`. -/
def mEx2 : memdb := (Write bEx mEx).2.2

/-- Witness for C2 at a concrete two-record batch. -/
theorem claim_C2_witness :
    Write bEx mEx = (none, bEx2, mEx2) ∧
    (bEx2.batchSeq = mEx.seq ∧
     mEx2.seq = mEx.seq + (uniq bEx.index).length ∧
     ∃ es, mEx2.entries = mEx.entries ++ es ∧
       es.length = (uniq bEx.index).length ∧
       ∀ k (hk : k < es.length),
         (parseInternalKey (es.get ⟨k, hk⟩).ikey).seq = mEx.seq + k + 1) :=
  ⟨by decide, claim_C2_write_seq_contiguous bEx mEx bEx2 mEx2 (by decide)⟩

/-- C7: `mput` validation — empty key, oversized key, oversized value
give `KeyEmpty`, `KeyTooLarge`, `ValueTooLarge` respectively, and in
each error case the batch and the memdb (its staged records and its
`seq` counter) are returned unchanged. -/
theorem claim_C7_mput_validation (b : Batch) (m : memdb) (dFlag : Bool)
    (h expiresAt : Nat) (key value : List Nat) :
    (key.length = 0 →
      mput b m dFlag h expiresAt key value = (some .keyEmpty, b, m)) ∧
    (key.length ≠ 0 → key.length > MaxKeyLength →
      mput b m dFlag h expiresAt key value = (some .keyTooLarge, b, m)) ∧
    (key.length ≠ 0 → ¬key.length > MaxKeyLength →
      value.length > MaxValueLength →
      mput b m dFlag h expiresAt key value = (some .valueTooLarge, b, m)) := by
  refine ⟨fun h1 => ?_, fun h1 h2 => ?_, fun h1 h2 h3 => ?_⟩ <;>
    simp [mput, *]

/-- Witness for C7: the three validation failures at concrete inputs. -/
theorem claim_C7_witness :
    mput emptyBatch mEx false 5 0 [] [1] = (some .keyEmpty, emptyBatch, mEx) ∧
    mput emptyBatch mEx false 5 0 (List.replicate 65536 7) [1] =
      (some .keyTooLarge, emptyBatch, mEx) ∧
    mput emptyBatch mEx false 5 0 [1] (List.replicate 4294967296 7) =
      (some .valueTooLarge, emptyBatch, mEx) :=
  ⟨(claim_C7_mput_validation emptyBatch mEx false 5 0 [] [1]).1 rfl,
   (claim_C7_mput_validation emptyBatch mEx false 5 0
      (List.replicate 65536 7) [1]).2.1
     (by simp only [List.length_replicate]; decide)
     (by simp only [List.length_replicate, MaxKeyLength]; decide),
   (claim_C7_mput_validation emptyBatch mEx false 5 0 [1]
      (List.replicate 4294967296 7)).2.2 (by decide)
     (by simp only [MaxKeyLength]; decide)
     (by simp only [List.length_replicate, MaxValueLength]; decide)⟩

/-- C8 (counterexample): `appendRec` does not update `firstKeyHash`:
appending `Put([1],[2])` to the empty batch leaves `firstKeyHash = 0`,
which is not the hash of the first appended key. -/
theorem claim_C8_counterexample :
    (emptyBatch.appendRec false 0 [1] [2]).firstKeyHash = 0 ∧
    memHash [1] ≠ 0 := by
  exact ⟨rfl, by decide⟩

/-- The first nonzero element of a hash list (0 when there is none):
the value `firstKeyHash` converges to under `mput`'s
`if firstKeyHash == 0 { firstKeyHash = h }` updates. -/
def firstNonzeroHash : List Nat → Nat
  | [] => 0
  | h :: t => if h = 0 then firstNonzeroHash t else h

theorem writeLoop_firstKeyHash (l : List batchIndex) :
    ∀ b m b' m', writeLoop l b m = (none, b', m') →
      b'.firstKeyHash =
        if b.firstKeyHash = 0 then firstNonzeroHash (l.map (·.hash))
        else b.firstKeyHash := by
  induction l with
  | nil =>
    intro b m b' m' hw
    cases hw
    split <;> next hfk => simp [firstNonzeroHash, hfk]
  | cons idx rest ih =>
    intro b m b' m' hw
    unfold writeLoop at hw
    split at hw
    · cases hw
    next b1 m1 hmp =>
      obtain ⟨-, -, -, -, -, hfk1⟩ := mput_ok _ _ _ _ _ _ _ _ _ hmp
      have hrec := ih b1 m1 b' m' hw
      by_cases h0 : b.firstKeyHash = 0
      · by_cases hh : idx.hash = 0
        · rw [hrec, hfk1, if_pos h0]
          simp [firstNonzeroHash, h0, hh]
        · rw [hrec, hfk1, if_pos h0, if_neg hh, if_pos h0]
          simp [firstNonzeroHash, hh]
      · rw [hrec, hfk1, if_neg h0]
        simp [h0]

/-- C8 (amended): `appendRec` leaves `firstKeyHash` unchanged; the
update happens in `mput` during `Write` (set to the staged entry's
hash whenever the current value is 0), so after a fully successful
`Write` starting from `firstKeyHash = 0` it equals the first nonzero
hash among the deduplicated entries in staging order — and it stays 0
for an empty batch. -/
theorem claim_C8_firstKeyHash (b : Batch) (m : memdb) (dFlag : Bool)
    (h expiresAt : Nat) (key value : List Nat) (b' : Batch) (m' : memdb) :
    ((b.appendRec dFlag expiresAt key value).firstKeyHash = b.firstKeyHash) ∧
    (mput b m dFlag h expiresAt key value = (none, b', m') →
      b'.firstKeyHash = if b.firstKeyHash = 0 then h else b.firstKeyHash) ∧
    (Write b m = (none, b', m') → b.firstKeyHash = 0 →
      b'.firstKeyHash = firstNonzeroHash ((uniq b.index).map (·.hash))) := by
  refine ⟨rfl, fun hmp => (mput_ok _ _ _ _ _ _ _ _ _ hmp).2.2.2.2.2, fun hw h0 => ?_⟩
  unfold Write writeInternal at hw
  have hrec := writeLoop_firstKeyHash _ _ _ _ _ hw
  simpa [h0] using hrec

/-- Batch state after the single successful `mput` used as the C8
witness. -/
def mputB : Batch := (mput emptyBatch mEx false 5 0 [1] [2]).2.1

/-- Memdb state after the single successful `mput` used as the C8
witness. -/
def mputM : memdb := (mput emptyBatch mEx false 5 0 [1] [2]).2.2

/-- Witness for C8 at concrete inputs: one successful `mput` sets
`firstKeyHash`, and a successful `Write` of `bEx` computes the first
nonzero deduplicated hash. -/
theorem claim_C8_witness :
    mput emptyBatch mEx false 5 0 [1] [2] = (none, mputB, mputM) ∧
    mputB.firstKeyHash =
      (if emptyBatch.firstKeyHash = 0 then 5 else emptyBatch.firstKeyHash) ∧
    Write bEx mEx = (none, bEx2, mEx2) ∧ bEx.firstKeyHash = 0 ∧
    bEx2.firstKeyHash = firstNonzeroHash ((uniq bEx.index).map (·.hash)) :=
  ⟨by decide,
   (claim_C8_firstKeyHash emptyBatch mEx false 5 0 [1] [2] mputB mputM).2.1
     (by decide),
   by decide, by decide,
   (claim_C8_firstKeyHash bEx mEx false 0 0 [] [] bEx2 mEx2).2.2
     (by decide) (by decide)⟩

theorem mput_error (b : Batch) (m : memdb) (dFlag : Bool) (h expiresAt : Nat)
    (key value : List Nat) (e : BatchError) (b' : Batch) (m' : memdb)
    (hmp : mput b m dFlag h expiresAt key value = (some e, b', m')) :
    b' = b ∧ m' = m := by
  unfold mput at hmp
  split at hmp
  · simp only [Prod.mk.injEq] at hmp
    exact ⟨hmp.2.1.symm, hmp.2.2.symm⟩
  split at hmp
  · simp only [Prod.mk.injEq] at hmp
    exact ⟨hmp.2.1.symm, hmp.2.2.symm⟩
  split at hmp
  · simp only [Prod.mk.injEq] at hmp
    exact ⟨hmp.2.1.symm, hmp.2.2.symm⟩
  split at hmp
  · simp only [Prod.mk.injEq] at hmp
    exact ⟨hmp.2.1.symm, hmp.2.2.symm⟩
  · cases hmp

theorem writeLoop_error (l : List batchIndex) :
    ∀ b m e b' m', writeLoop l b m = (some e, b', m') →
      ∃ i, i < l.length ∧ m'.seq = m.seq + i ∧
        ∃ es, m'.entries = m.entries ++ es ∧ es.length = i ∧
          ∀ k (hk : k < es.length),
            (parseInternalKey (es.get ⟨k, hk⟩).ikey).seq = m.seq + k + 1 := by
  induction l with
  | nil => intro b m e b' m' hw; cases hw
  | cons idx rest ih =>
    intro b m e b' m' hw
    unfold writeLoop at hw
    split at hw
    next e1 b1 m1 hmp =>
      obtain ⟨he, hb, hm⟩ : some e1 = some e ∧ b1 = b' ∧ m1 = m' := by
        simpa using hw
      obtain ⟨rfl, rfl⟩ := mput_error _ _ _ _ _ _ _ _ _ _
        (by rw [hmp, hb, hm])
      exact ⟨0, by simp, by simp, [], by simp, rfl, by intro k hk; cases hk⟩
    next b1 m1 hmp =>
      obtain ⟨hseq1, ⟨k, hk, hent1⟩, -, -, -, -⟩ :=
        mput_ok _ _ _ _ _ _ _ _ _ hmp
      obtain ⟨i, hi, hseq, es', hent, hlen, hseqs⟩ := ih b1 m1 e b' m' hw
      have hmax : m.seq + 1 ≤ keyMaxSeq := by
        by_contra hc
        unfold makeInternalKey at hk
        rw [if_pos (by omega)] at hk
        cases hk
      have hparse : (parseInternalKey k).seq = m.seq + 1 := by
        unfold makeInternalKey at hk
        rw [if_neg (by omega)] at hk
        cases hk
        exact congrArg ParsedKey.seq
          (parse_make (idx.kv b.data).1 (m.seq + 1) idx.delFlag
            idx.expiresAt hmax).2
      refine ⟨i + 1, by simpa using Nat.succ_lt_succ hi, by omega,
        memdbEntry.mk idx.hash k (idx.kv b.data).2 idx.expiresAt :: es', ?_,
        by simp [hlen], ?_⟩
      · rw [hent, hent1, List.append_assoc, List.singleton_append]
      · intro j hj
        cases j with
        | zero => simpa using hparse
        | succ j2 =>
          have hj2 : j2 < es'.length := by
            simpa using Nat.lt_of_succ_lt_succ hj
          have hthis := hseqs j2 hj2
          rw [hseq1] at hthis
          simpa [Nat.add_assoc, Nat.add_comm, Nat.add_left_comm] using hthis

/-- C9: when staging fails partway through a `Write`, the error is
returned, the records staged before the failure remain in the memdb
with their already-assigned contiguous sequence numbers, `mem.seq`
stays advanced by their count (no rollback), and the writer gate
remains held (`Write` acquired it and no error path releases it; only
`Abort` does). -/
theorem claim_C9_write_failure_no_rollback (b : Batch) (m : memdb)
    (e : BatchError) (b' : Batch) (m' : memdb)
    (hw : Write b m = (some e, b', m')) :
    WriteOp false b m = some (true, (some e, b', m')) ∧
    ∃ i, i < (uniq b.index).length ∧ m'.seq = m.seq + i ∧
      ∃ es, m'.entries = m.entries ++ es ∧ es.length = i ∧
        ∀ k (hk : k < es.length),
          (parseInternalKey (es.get ⟨k, hk⟩).ikey).seq = m.seq + k + 1 := by
  refine ⟨by simp [WriteOp, hw], ?_⟩
  unfold Write writeInternal at hw
  obtain ⟨i, hi, hseq, es, hent, hlen, hseqs⟩ := writeLoop_error _ _ _ _ _ _ hw
  exact ⟨i, by simpa using hi, hseq, es, hent, hlen, hseqs⟩

/-- Concrete batch whose second deduplicated record has an empty key:
`Put([1],[9])` then `Put([],[8])`. -/
def bBad : Batch := (emptyBatch.put [1] [9]).put [] [8]

/-- Batch state after the failing `Write bBad mEx`. -/
def bBad2 : Batch := (Write bBad mEx).2.1

/-- Memdb state after the failing `Write bBad mEx`. -/
def mBad2 : memdb := (Write bBad mEx).2.2

/-- Witness for C9: `Write` of `bBad` fails with `KeyEmpty` after
staging one record. -/
theorem claim_C9_witness :
    Write bBad mEx = (some .keyEmpty, bBad2, mBad2) ∧
    (WriteOp false bBad mEx = some (true, (some .keyEmpty, bBad2, mBad2)) ∧
     ∃ i, i < (uniq bBad.index).length ∧ mBad2.seq = mEx.seq + i ∧
       ∃ es, mBad2.entries = mEx.entries ++ es ∧ es.length = i ∧
         ∀ k (hk : k < es.length),
           (parseInternalKey (es.get ⟨k, hk⟩).ikey).seq = mEx.seq + k + 1) :=
  ⟨by decide,
   claim_C9_write_failure_no_rollback bBad mEx .keyEmpty bBad2 mBad2 (by decide)⟩

/-! ## Persistent index, data region and filter (modelled from the spec)

The persistent side consumed by `commit` lives outside `src/`.
Following the spec's data model: the bucket file is an array of
buckets, each holding `entriesPerBucket` fixed-width slots and a
`next` offset (0 = no overflow).  A bucket chain is modelled as a
`List bucketHandle` per main bucket index; "`next == 0`" corresponds
to being last in that list, and `bh.write()` to functionally replacing
the bucket at its chain position.  The data region is a store of
key/value payloads addressed by `kvOffset` (offset 0 is reserved:
a slot with `kvOffset == 0` is empty), with `free` marking a span
reclaimed.  The presence filter is carried as its `Test` predicate;
`Append` strengthens it, so false positives are possible and false
negatives are not. -/

/-- One slot of a persistent bucket.  `kvOffset == 0` means empty. -/
structure entry where
  hash : Nat := 0
  keySize : Nat := 0
  valueSize : Nat := 0
  expiresAt : Nat := 0
  kvOffset : Nat := 0
  deriving Repr, DecidableEq

/-- `entry.kvSize()`. -/
def entry.kvSize (sl : entry) : Nat := sl.keySize + sl.valueSize

/-- A persistent bucket: its `entriesPerBucket` slots.  The `next`
offset is represented by the bucket's position in its chain list. -/
structure bucketHandle where
  entries : List entry
  deriving Repr, DecidableEq

/-- A freshly allocated (all-empty) bucket, as returned by
`createOverflowBucket`. -/
def emptyBucket : bucketHandle :=
  { entries := List.replicate entriesPerBucket {} }

/-- `bucketHandle.del(i)`: clear slot `i` (spec: "clear the slot"). -/
def bucketHandle.del (bh : bucketHandle) (i : Nat) : bucketHandle :=
  { entries := bh.entries.set i {} }

/-- Modelled from the spec: the persistent DB state used by the commit
walk.  `filterTest` is the filter's membership predicate; `freed`
records spans handed to `data.free`. -/
structure DB where
  buckets : List (List bucketHandle)
  data : List (Option (List Nat × List Nat))
  freed : List (Nat × Nat)
  count : Nat
  filterTest : Nat → Bool
  metricsDels : Int
  metricsPuts : Int
  syncWrites : Bool

/-- `db.bucketIndex(hash)`: spec, `hash mod nBuckets`. -/
def DB.bucketIndex (db : DB) (h : Nat) : Nat := h % db.buckets.length

/-- Modelled from the spec: `db.data.readKey(slot)` reads the stored
key at the slot's payload offset; a dangling offset is an I/O error. -/
def DB.readKey (db : DB) (sl : entry) : Except BatchError (List Nat) :=
  match db.data.getD (sl.kvOffset - 1) none with
  | some kv => .ok kv.1
  | none => .error .dataRead

/-- Modelled from the spec: `db.data.writeKeyValue(key, value)`
appends the payload and returns its offset (offsets start at 1, 0
being the empty marker). -/
def DB.writeKeyValue (db : DB) (key value : List Nat) : Nat × DB :=
  (db.data.length + 1, { db with data := db.data ++ [some (key, value)] })

/-- Modelled from the spec: `db.data.free(size, offset)` reclaims a
span (recorded in `freed`); the payload becomes unreadable. -/
def DB.free (db : DB) (size off : Nat) : DB :=
  { db with
    data := db.data.set (off - 1) none
    freed := db.freed ++ [(size, off)] }

/-! ## Memdb bucket view for the commit walk (modelled from the spec)

`commit` iterates the shared memdb's buckets (`mem.forEachBucket`) and
reads each occupied slot through `mem.data.readKeyValue`, which fails
with `errKeyExpired` on an expired entry.  The memdb internals live
outside `src/`; the walk's input is modelled as the bucket chains it
iterates: per main bucket index a chain of handles, each handle
holding its `entriesPerBucket` slots. -/

/-- One memdb slot as the commit walk sees it: the empty marker, the
stored internal key and value, and whether a read reports
`errKeyExpired`. -/
structure memSlot where
  kvOffset : Nat
  ikey : List Nat
  value : List Nat
  expired : Bool
  deriving Repr, DecidableEq

/-- Modelled from the spec: `mem.data.readKeyValue`. -/
def memSlot.readKeyValue (sl : memSlot) : Except BatchError (List Nat × List Nat) :=
  if sl.expired then .error .keyExpired else .ok (sl.ikey, sl.value)

/-- One memdb bucket handle (its slots). -/
structure memBucket where
  slots : List memSlot
  deriving Repr, DecidableEq

/-! ## The commit walk (`commit`) -/

/-- The mutable walk state of `commit`: the DB, the per-batch
`delCount`/`putCount`, the `originalB` bucket pointer (main index,
chain position and the stale snapshot captured when an overflow bucket
was linked — it is written back after every later put, as in the
source), and the spans whose `data.free` is deferred to the end of
`commit`. -/
structure CState where
  db : DB
  delCount : Int
  putCount : Int
  originalB : Option (Nat × Nat × bucketHandle)
  pendingFree : List (Nat × Nat)

/-- Outcome of processing one memdb slot: fall through to the next
slot (`continue`), or return `(done, err)` from the bucket callback. -/
inductive SlotOut where
  | next (st : CState)
  | ret (done : Bool) (e : Option BatchError) (st : CState)

/-- The walk state carried by a slot outcome. -/
def SlotOut.state : SlotOut → CState
  | .next st => st
  | .ret _ _ st => st

/-- Scan result of the delete path's bucket callback. -/
inductive DelScan where
  | found (i : Nat)
  | stop
  | nextBucket
  deriving Repr, DecidableEq

/-- The delete path's slot loop over one persistent bucket: an empty
slot ends the chain walk when the bucket is last (`bh.next == 0`) and
otherwise moves to the next chained bucket; a slot whose hash and key
size match has its stored key read and compared bytewise. -/
def delScanSlots (db : DB) (key : List Nat) (h : Nat) :
    List entry → Nat → Bool → Except BatchError DelScan
  | [], _, _ => .ok .nextBucket
  | sl :: rest, i, isLast =>
    if sl.kvOffset = 0 then .ok (if isLast then .stop else .nextBucket)
    else if h = sl.hash ∧ key.length % 65536 = sl.keySize then
      match db.readKey sl with
      | .error e => .error e
      | .ok slKey =>
        if key = slKey then .ok (.found i)
        else delScanSlots db key h rest (i + 1) isLast
    else delScanSlots db key h rest (i + 1) isLast

/-- The delete path's chain walk (`db.forEachBucket` at
`db.bucketIndex(hash)`): returns the chain position and slot index of
the matching entry, or `none` when the key is not present. -/
def delScanChain (db : DB) (key : List Nat) (h : Nat) :
    List bucketHandle → Nat → Except BatchError (Option (Nat × Nat))
  | [], _ => .ok none
  | bh :: rest, pos =>
    match delScanSlots db key h bh.entries 0 rest.isEmpty with
    | .error e => .error e
    | .ok (.found i) => .ok (some (pos, i))
    | .ok .stop => .ok none
    | .ok .nextBucket => delScanChain db key h rest (pos + 1)

/-- Apply a found delete: clear the slot, persist the bucket, free the
payload span (immediately, as in the source's delete path) and
decrement the live count. -/
def applyDel (st : CState) (mainIdx pos i : Nat) : CState :=
  let chain := st.db.buckets.getD mainIdx []
  let bh := chain.getD pos { entries := [] }
  let sl := bh.entries.getD i {}
  let chain2 := chain.set pos (bh.del i)
  let db2 := { st.db with buckets := st.db.buckets.set mainIdx chain2 }
  let db3 := db2.free sl.kvSize sl.kvOffset
  { st with db := { db3 with count := db3.count - 1 } }

/-- The delete dispatch of the commit walk.  A failed filter test
returns `(false, nil)` from the memdb callback (skipping the rest of
this memdb handle); otherwise `delCount` is incremented *before* the
index lookup, so it also counts filter false positives whose key is
then not found. -/
def deleteStep (st : CState) (key : List Nat) (h : Nat) : SlotOut :=
  if !(st.db.filterTest h) then .ret false none st
  else
    let st1 := { st with delCount := st.delCount + 1 }
    match delScanChain st1.db key h
        (st1.db.buckets.getD (st1.db.bucketIndex h) []) 0 with
    | .error e => .ret false (some e) st1
    | .ok none => .ret false none st1
    | .ok (some (pos, i)) => .next (applyDel st1 (st1.db.bucketIndex h) pos i)

/-- The put path's slot loop over one persistent bucket: the first
empty slot is the insertion point; a hash/size match has its stored
key compared (equality selects the slot for update). -/
def putScanSlots (db : DB) (key : List Nat) (h : Nat) :
    List entry → Nat → Except BatchError (Option Nat)
  | [], _ => .ok none
  | sl :: rest, i =>
    if sl.kvOffset = 0 then .ok (some i)
    else if h = sl.hash ∧ key.length % 65536 = sl.keySize then
      match db.readKey sl with
      | .error e => .error e
      | .ok slKey =>
        if key = slKey then .ok (some i)
        else putScanSlots db key h rest (i + 1)
    else putScanSlots db key h rest (i + 1)

/-- The put path's chain walk: returns `(pos, slot, createdOverflow)`.
When the whole chain is scanned without a usable slot, a fresh
overflow bucket is linked at the end of the chain (`pos` then points
at it and its slot 0 is used). -/
def putScanChain (db : DB) (key : List Nat) (h : Nat) :
    List bucketHandle → Nat → Except BatchError (Nat × Nat × Bool)
  | [], pos => .ok (pos, 0, true)
  | [bh], pos =>
    (match putScanSlots db key h bh.entries 0 with
     | .error e => .error e
     | .ok (some i) => .ok (pos, i, false)
     | .ok none => .ok (pos + 1, 0, true))
  | bh :: rest, pos =>
    match putScanSlots db key h bh.entries 0 with
    | .error e => .error e
    | .ok (some i) => .ok (pos, i, false)
    | .ok none => putScanChain db key h rest (pos + 1)

/-- The put dispatch of the commit walk.  `putCount` is incremented
before the lookup.  A fresh insert checks `MaxKeys` and bumps `count`;
an update defers freeing the old span to the end of `commit`.  The new
slot is written, the bucket persisted, the (possibly stale)
`originalB` snapshot re-written when present, and the hash appended to
the filter. -/
def putStep (st : CState) (key value : List Nat) (h expiresAt : Nat) : SlotOut :=
  let st1 := { st with putCount := st.putCount + 1 }
  let mainIdx := st1.db.bucketIndex h
  let chain := st1.db.buckets.getD mainIdx []
  match putScanChain st1.db key h chain 0 with
  | .error e => .ret false (some e) st1
  | .ok (pos, i, created) =>
    let st2 :=
      if created then
        { st1 with
          db := { st1.db with
            buckets := st1.db.buckets.set mainIdx (chain ++ [emptyBucket]) }
          originalB := some (mainIdx, pos - 1, chain.getD (pos - 1) { entries := [] }) }
      else st1
    let chain2 := st2.db.buckets.getD mainIdx []
    let sl := (chain2.getD pos { entries := [] }).entries.getD i {}
    if sl.kvOffset = 0 ∧ st2.db.count = MaxKeys then .ret false (some .full) st2
    else
      let st3 :=
        if sl.kvOffset = 0 then
          { st2 with db := { st2.db with count := st2.db.count + 1 } }
        else
          { st2 with pendingFree := st2.pendingFree ++ [(sl.kvSize, sl.kvOffset)] }
      let wr := st3.db.writeKeyValue key value
      let newEntry : entry :=
        { hash := h, keySize := key.length % 65536,
          valueSize := value.length % 4294967296,
          expiresAt := expiresAt, kvOffset := wr.1 }
      let chain3 := wr.2.buckets.getD mainIdx []
      let bh2 : bucketHandle :=
        { entries := (chain3.getD pos { entries := [] }).entries.set i newEntry }
      let db5 := { wr.2 with buckets := wr.2.buckets.set mainIdx (chain3.set pos bh2) }
      let db6 :=
        match st3.originalB with
        | none => db5
        | some (mi, cp, snap) =>
          { db5 with buckets := db5.buckets.set mi ((db5.buckets.getD mi []).set cp snap) }
      .next { st3 with
        db := { db6 with filterTest := fun x => x == h || db6.filterTest x } }

/-- Processing of one occupied-or-empty memdb slot: the empty marker
returns `(next == 0, nil)`; an expired read is skipped; the internal
key is parsed (its `err` is always nil — see the C6 analysis);
`seq ≤ batchSeq` is skipped; `seq > batchSeq + Len()` signals
`BatchSeqComplete`; otherwise the entry is dispatched on its delete
flag. -/
def slotStep (batchSeq lenIdx : Nat) (isLast : Bool) (st : CState)
    (sl : memSlot) : SlotOut :=
  if sl.kvOffset = 0 then .ret isLast none st
  else
    match sl.readKeyValue with
    | .error BatchError.keyExpired => .next st
    | .error e => .ret true (some e) st
    | .ok kv =>
      let pk := parseInternalKey kv.1
      if pk.seq ≤ batchSeq then .next st
      else if pk.seq > batchSeq + lenIdx then
        .ret true (some .batchSeqComplete) st
      else
        let h := memHash pk.ukey
        if pk.dFlag then deleteStep st pk.ukey h
        else putStep st pk.ukey kv.2 h pk.expiresAt

/-- The slot loop of the memdb bucket callback. -/
def processSlots (batchSeq lenIdx : Nat) (isLast : Bool) :
    List memSlot → CState → Bool × Option BatchError × CState
  | [], st => (false, none, st)
  | sl :: rest, st =>
    match slotStep batchSeq lenIdx isLast st sl with
    | .next st2 => processSlots batchSeq lenIdx isLast rest st2
    | .ret d e st2 => (d, e, st2)

/-- `mem.forEachBucket`: run the callback along one memdb bucket
chain, stopping on `done` or a non-nil error. -/
def processChain (batchSeq lenIdx : Nat) :
    List memBucket → CState → Option BatchError × CState
  | [], st => (none, st)
  | mb :: rest, st =>
    match processSlots batchSeq lenIdx rest.isEmpty mb.slots st with
    | (true, e, st2) => (e, st2)
    | (false, some e, st2) => (some e, st2)
    | (false, none, st2) => processChain batchSeq lenIdx rest st2

/-- The outer bucket loop of `commit`: `errBatchSeqComplete` breaks
out (and is swallowed); any other error propagates. -/
def commitLoop (batchSeq lenIdx : Nat) :
    List (List memBucket) → CState → Option BatchError × CState
  | [], st => (none, st)
  | chain :: rest, st =>
    match processChain batchSeq lenIdx chain st with
    | (some BatchError.batchSeqComplete, st2) => (none, st2)
    | (some e, st2) => (some e, st2)
    | (none, st2) => commitLoop batchSeq lenIdx rest st2

/-- Run the `data.free` calls deferred by put updates (Go defers run
in reverse registration order at `commit`'s return, on both the
success and the error path). -/
def CState.runDeferred (st : CState) : DB :=
  st.pendingFree.reverse.foldl (fun db p => db.free p.1 p.2) st.db

/-- `commit()`: walk the memdb buckets from
`mem.bucketIndex(firstKeyHash)` upward, then add the per-batch
counters to the metrics.  `db.sync()` under `syncWrites` is an fsync
with no state visible to the model.  The gate `writeLockC` is not
touched.  (`batchSeq` is the captured sequence, `lenIdx` the pre-dedup
`b.Len()`, and `memBuckets` the memdb bucket chains.) -/
def commit (batchSeq lenIdx firstKeyHash : Nat)
    (memBuckets : List (List memBucket)) (db : DB) : Option BatchError × DB :=
  match commitLoop batchSeq lenIdx
      (memBuckets.drop (firstKeyHash % memBuckets.length))
      { db := db, delCount := 0, putCount := 0, originalB := none,
        pendingFree := [] } with
  | (some e, st) => (some e, st.runDeferred)
  | (none, st) =>
    (none,
      { st.runDeferred with
        metricsDels := st.db.metricsDels + st.delCount
        metricsPuts := st.db.metricsPuts + st.putCount })

/-- `Commit()` passes the writer gate through untouched: neither
`Commit` nor `commit` sends or receives on `writeLockC`. -/
def CommitOp (g : Bool) (batchSeq lenIdx firstKeyHash : Nat)
    (memBuckets : List (List memBucket)) (db : DB) :
    Bool × (Option BatchError × DB) :=
  (g, commit batchSeq lenIdx firstKeyHash memBuckets db)

/-! ## Commit walk claims -/

theorem commitLoop_no_bsc (batchSeq lenIdx : Nat)
    (chains : List (List memBucket)) :
    ∀ st, (commitLoop batchSeq lenIdx chains st).1 ≠
      some BatchError.batchSeqComplete := by
  induction chains with
  | nil => intro st; simp [commitLoop]
  | cons chain rest ih =>
    intro st
    unfold commitLoop
    rcases hpc : processChain batchSeq lenIdx chain st with ⟨oe, st2⟩
    cases oe with
    | none => simpa using ih st2
    | some e => cases e <;> simp

/-- C3: during the commit walk, an entry parsing to `seq ≤ batchSeq`
is skipped with the walk state unchanged; the first entry with
`seq > batchSeq + Len()` makes the bucket callback return the
`BatchSeqComplete` signal immediately (state unchanged, no further
slot of the bucket processed); and `commit` never surfaces
`BatchSeqComplete` as its error. -/
theorem claim_C3_commit_walk_window (batchSeq lenIdx : Nat) (isLast : Bool)
    (st : CState) (sl : memSlot) :
    (sl.kvOffset ≠ 0 → sl.expired = false →
      (parseInternalKey sl.ikey).seq ≤ batchSeq →
      slotStep batchSeq lenIdx isLast st sl = .next st) ∧
    (sl.kvOffset ≠ 0 → sl.expired = false →
      (parseInternalKey sl.ikey).seq > batchSeq + lenIdx →
      ∀ rest, processSlots batchSeq lenIdx isLast (sl :: rest) st =
        (true, some .batchSeqComplete, st)) ∧
    (∀ fkh mems db, (commit batchSeq lenIdx fkh mems db).1 ≠
      some BatchError.batchSeqComplete) := by
  refine ⟨fun h1 h2 h3 => ?_, fun h1 h2 h3 rest => ?_, fun fkh mems db => ?_⟩
  · simp [slotStep, memSlot.readKeyValue, h1, h2, h3]
  · have hn1 : ¬(parseInternalKey sl.ikey).seq ≤ batchSeq := by omega
    simp [processSlots, slotStep, memSlot.readKeyValue, h1, h2, h3, hn1]
  · unfold commit
    rcases hcl : commitLoop batchSeq lenIdx
        (mems.drop (fkh % mems.length))
        { db := db, delCount := 0, putCount := 0, originalB := none,
          pendingFree := [] } with ⟨oe, st2⟩
    have hne := commitLoop_no_bsc batchSeq lenIdx
      (mems.drop (fkh % mems.length))
      { db := db, delCount := 0, putCount := 0, originalB := none,
        pendingFree := [] }
    rw [hcl] at hne
    cases oe with
    | none => simp
    | some e =>
      simpa using hne

/-- A staged delete record for the concrete commit runs: internal key
of user key `[7]` at sequence 1 with the delete flag set. -/
def slDel : memSlot :=
  { kvOffset := 1, ikey := (makeInternalKey [7] 1 true 0).getD [],
    value := [], expired := false }

/-- An empty memdb slot. -/
def emptyMemSlot : memSlot :=
  { kvOffset := 0, ikey := [], value := [], expired := false }

/-- A one-bucket memdb view holding only the staged delete. -/
def memsEx : List (List memBucket) :=
  [[{ slots := [slDel, emptyMemSlot, emptyMemSlot] }]]

/-- A persistent DB with one empty bucket, three live keys elsewhere
accounted in `count`, and a filter that answers `true` for everything
(a legal presence filter: false positives only). -/
def dbEx : DB :=
  { buckets := [[emptyBucket]], data := [], freed := [], count := 3,
    filterTest := fun _ => true, metricsDels := 0, metricsPuts := 0,
    syncWrites := false }

/-- A concrete walk state over `dbEx`. -/
def cstEx : CState :=
  { db := dbEx, delCount := 0, putCount := 0, originalB := none,
    pendingFree := [] }

/-- A staged record parsing to sequence 1 (inside the window of
`batchSeq = 1`). -/
def slSkip : memSlot :=
  { kvOffset := 1, ikey := (makeInternalKey [9] 1 false 0).getD [],
    value := [], expired := false }

/-- A staged record parsing to sequence 5 (beyond
`batchSeq + Len() = 3`). -/
def slHigh : memSlot :=
  { kvOffset := 1, ikey := (makeInternalKey [9] 5 false 0).getD [],
    value := [], expired := false }

/-- Witness for C3 at concrete inputs. -/
theorem claim_C3_witness :
    slotStep 1 2 true cstEx slSkip = .next cstEx ∧
    processSlots 1 2 true [slHigh] cstEx =
      (true, some .batchSeqComplete, cstEx) ∧
    (commit 1 2 0 memsEx dbEx).1 ≠ some BatchError.batchSeqComplete :=
  ⟨(claim_C3_commit_walk_window 1 2 true cstEx slSkip).1
     (by decide) (by decide) (by decide),
   (claim_C3_commit_walk_window 1 2 true cstEx slHigh).2.1
     (by decide) (by decide) (by decide) [],
   (claim_C3_commit_walk_window 1 2 true cstEx slSkip).2.2 0 memsEx dbEx⟩

theorem deleteStep_delCount (st : CState) (key : List Nat) (h : Nat)
    (hf : st.db.filterTest h = true) :
    ((deleteStep st key h).state).delCount = st.delCount + 1 := by
  unfold deleteStep
  have hcond : (!st.db.filterTest h) ≠ true := by simp [hf]
  rw [if_neg hcond]
  dsimp only
  split <;> simp [SlotOut.state, applyDel]

/-- C10: the per-batch delete counter is incremented for every staged
delete entry in the sequence window whose hash passes `filter.Test` —
the increment happens before the index lookup, so it also counts
filter false positives whose key is then not found — and hence the
amount added to `metrics.Dels` can exceed the number of cleared slots
and `db.count` decrements, as the concrete run shows: one staged
delete of an absent key adds 1 to `metrics.Dels` while `db.count` is
unchanged. -/
theorem claim_C10_dels_overcount (batchSeq lenIdx : Nat) (isLast : Bool)
    (st : CState) (sl : memSlot)
    (h1 : sl.kvOffset ≠ 0) (h2 : sl.expired = false)
    (h3 : (parseInternalKey sl.ikey).dFlag = true)
    (h4 : batchSeq < (parseInternalKey sl.ikey).seq)
    (h5 : (parseInternalKey sl.ikey).seq ≤ batchSeq + lenIdx)
    (h6 : st.db.filterTest (memHash (parseInternalKey sl.ikey).ukey) = true) :
    ((slotStep batchSeq lenIdx isLast st sl).state).delCount =
      st.delCount + 1 ∧
    ((commit 0 1 0 memsEx dbEx).1 = none ∧
     (commit 0 1 0 memsEx dbEx).2.metricsDels = dbEx.metricsDels + 1 ∧
     (commit 0 1 0 memsEx dbEx).2.count = dbEx.count) := by
  have hn1 : ¬(parseInternalKey sl.ikey).seq ≤ batchSeq := by omega
  have hn2 : ¬(parseInternalKey sl.ikey).seq > batchSeq + lenIdx := by omega
  have hslot : slotStep batchSeq lenIdx isLast st sl =
      deleteStep st (parseInternalKey sl.ikey).ukey
        (memHash (parseInternalKey sl.ikey).ukey) := by
    simp [slotStep, memSlot.readKeyValue, h1, h2, h3, hn1, hn2]
  refine ⟨?_, by decide, by decide, by decide⟩
  rw [hslot]
  exact deleteStep_delCount st _ _ h6

/-- Witness for C10: the staged delete `slDel` over `dbEx` (filter
passes, key absent from the index). -/
theorem claim_C10_witness :
    ((slotStep 0 1 true cstEx slDel).state).delCount = cstEx.delCount + 1 ∧
    ((commit 0 1 0 memsEx dbEx).1 = none ∧
     (commit 0 1 0 memsEx dbEx).2.metricsDels = dbEx.metricsDels + 1 ∧
     (commit 0 1 0 memsEx dbEx).2.count = dbEx.count) :=
  claim_C10_dels_overcount 0 1 true cstEx slDel (by decide) (by decide)
    (by decide) (by decide) (by decide) (by decide)

/-! ## Writer gate claims -/

/-- C4 (counterexample): `Commit` does not release the writer gate —
after a first `Write` acquired it, `Commit` leaves it held and a
second `Write` still blocks. -/
theorem claim_C4_counterexample :
    (CommitOp true 0 1 0 memsEx dbEx).1 = true ∧
    WriteOp true emptyBatch mEx = none :=
  ⟨rfl, rfl⟩

/-- C4 (amended): the 1-slot gate `writeLockC` is acquired by
`Write()` and released by `Abort()` only: a `Write` against a held
gate blocks, a `Write` against a free gate acquires it and runs the
staging body, `Abort` frees a held gate (its receive blocks on a free
one), and `Commit`/`commit` leave the gate exactly as it was — so no
two `Write` calls progress concurrently, and a second `Write` blocks
until the first batch's `Abort` (not its `Commit`) releases the
gate. -/
theorem claim_C4_writer_gate (g : Bool) (b : Batch) (m : memdb)
    (batchSeq lenIdx fkh : Nat) (mems : List (List memBucket)) (db : DB) :
    WriteOp true b m = none ∧
    WriteOp false b m = some (true, Write b m) ∧
    AbortOp true b = some (false, b.Reset) ∧
    AbortOp false b = none ∧
    (CommitOp g batchSeq lenIdx fkh mems db).1 = g :=
  ⟨rfl, rfl, rfl, rfl, rfl⟩

end Tracedb
